import Mathlib

/-!
Verification of the tag-tree core of the `qvnt-i` interactive interpreter
(`src/int_tree.rs`), of its teardown discipline (`impl Drop for Tree`), and of
the source-leakage bridge (`src/utils/drop_leakage.rs`, `src/process.rs`).

The Rust `Tree<T>` is a `HashMap<Rc<String>, TreeEntry<T>>` together with a
`head : Rc<String>`.  The map is embedded as an association list with unique
keys (a `HashMap` never holds two entries with the same key); tags are
`String`s, and `Rc` sharing is irrelevant to the values computed, so tags are
embedded as plain strings.
-/

set_option autoImplicit false

namespace QvntI

/-- `TreeEntry<T>` from src/int_tree.rs: `Root`, or `Leaf { value, parent }`. -/
inductive TreeEntry (T : Type) where
  | Root : TreeEntry T
  | Leaf (value : T) (parent : String) : TreeEntry T
deriving DecidableEq

/-- `Tree<T>` from src/int_tree.rs: a head tag plus a map from tags to
entries, embedded as an association list with unique keys. -/
structure Tree (T : Type) where
  head : String
  map : List (String × TreeEntry T)
deriving DecidableEq

/-- `RemoveStatus` from src/int_tree.rs. -/
inductive RemoveStatus where
  | Removed
  | NotFound
  | IsParent
  | IsHead
  | IsRoot
deriving DecidableEq

/-- `HashMap::get` on the association-list embedding: the value stored under
key `x`, if any. -/
def lookupTag {A : Type} (x : String) : List (String × A) → Option A
  | [] => none
  | e :: rest => if e.1 = x then some e.2 else lookupTag x rest

/-- The keys of the map, in entry order. -/
def keys {A : Type} (m : List (String × A)) : List String :=
  m.map Prod.fst

/-- `HashMap::remove` on the association-list embedding: drop the (unique)
entry stored under key `x`. -/
def eraseKey {A : Type} (x : String) : List (String × A) → List (String × A)
  | [] => []
  | e :: rest => if e.1 = x then rest else e :: eraseKey x rest

/-- The scan in `Tree::remove` (src/int_tree.rs lines 167-172): is `tag` the
parent recorded by some `Leaf` entry of the map? -/
def isParentOf {T : Type} (m : List (String × TreeEntry T)) (tag : String) : Bool :=
  m.any fun e =>
    match e.2 with
    | TreeEntry.Leaf _ p => p = tag
    | TreeEntry.Root => false

/-- `Tree::with_root` (src/int_tree.rs lines 26-33): a one-entry map holding
`Root`, with head on it. -/
def Tree.with_root {T : Type} (root : String) : Tree T :=
  { head := root, map := [(root, TreeEntry.Root)] }

/-- `Tree::commit` (src/int_tree.rs lines 101-121).  If `tag` is already a
key, return `false` and leave the tree alone; otherwise insert a `Leaf`
holding `change` whose parent is the current head, move the head to `tag`,
and return `true`.  The pair is (returned bool, tree after the call). -/
def Tree.commit {T : Type} (t : Tree T) (tag : String) (change : T) : Bool × Tree T :=
  if (lookupTag tag t.map).isSome then
    (false, t)
  else
    (true, { head := tag, map := (tag, TreeEntry.Leaf change t.head) :: t.map })

/-- `Tree::checkout` (src/int_tree.rs lines 123-137): move the head to `tag`
if `tag` is a key, else do nothing; the bool reports success. -/
def Tree.checkout {T : Type} (t : Tree T) (tag : String) : Bool × Tree T :=
  if (lookupTag tag t.map).isSome then
    (true, { t with head := tag })
  else
    (false, t)

/-- `Tree::remove` (src/int_tree.rs lines 160-187).  Head check first, then
the parent scan, then `map.remove(&tag)`; note that in the source the entry
is removed from the map *before* it is matched, so the `Root` case returns
`IsRoot` with the entry already gone.  The pair is (status, tree after the
call). -/
def Tree.remove {T : Type} (t : Tree T) (tag : String) : RemoveStatus × Tree T :=
  if t.head = tag then
    (RemoveStatus.IsHead, t)
  else if isParentOf t.map tag then
    (RemoveStatus.IsParent, t)
  else
    match lookupTag tag t.map with
    | none => (RemoveStatus.NotFound, t)
    | some TreeEntry.Root => (RemoveStatus.IsRoot, { t with map := eraseKey tag t.map })
    | some (TreeEntry.Leaf _ _) => (RemoveStatus.Removed, { t with map := eraseKey tag t.map })

/-- The drain loop of `impl Drop for Tree` (src/int_tree.rs lines 190-198):
the sequence of values passed to `T::drop`, one per `Leaf` entry drained,
none for `Root`. -/
def drainReleases {T : Type} : List (String × TreeEntry T) → List T
  | [] => []
  | (_, TreeEntry.Root) :: rest => drainReleases rest
  | (_, TreeEntry.Leaf v _) :: rest => v :: drainReleases rest

/-- The number of `Leaf` entries of a map. -/
def countLeaves {T : Type} (m : List (String × TreeEntry T)) : Nat :=
  m.countP fun e =>
    match e.2 with
    | TreeEntry.Leaf _ _ => true
    | TreeEntry.Root => false

/-- The loop of `Tree::collect_to_head` (src/int_tree.rs lines 139-158),
threading the borrowed tree through each iteration: look the cursor up; a
missing key aborts with `none` (the `?` in the source), `Root` ends the walk
with the accumulator, a `Leaf` folds its value into the accumulator with
`combine` and steps to the parent.  The Rust loop has no bound; it
terminates exactly when the walk reaches `Root` or a missing key, and a
terminating walk never revisits a tag (the step is deterministic, so a
revisit would loop forever), hence performs at most `map.length + 1`
lookups.  Run with that much fuel the embedding agrees with every
terminating run of the source and returns `none` where the source would
loop forever. -/
def collectAuxSt {T : Type} (combine : T → T → T) :
    Nat → Tree T → String → T → Option T × Tree T
  | 0, t, _, _ => (none, t)
  | fuel + 1, t, tag, acc =>
    match lookupTag tag t.map with
    | none => (none, t)
    | some TreeEntry.Root => (some acc, t)
    | some (TreeEntry.Leaf v p) => collectAuxSt combine fuel t p (combine acc v)

/-- `Tree::collect_to_head` on `&self`, keeping the borrowed tree in the
result: (returned value, the tree after the call).  `init` is the value the
source's `init()` closure produces. -/
def Tree.collect_to_head_run {T : Type} (t : Tree T) (init : T) (combine : T → T → T) :
    Option T × Tree T :=
  collectAuxSt combine (t.map.length + 1) t t.head init

/-- `Tree::collect_to_head`'s returned value. -/
def Tree.collect_to_head {T : Type} (t : Tree T) (init : T) (combine : T → T → T) :
    Option T :=
  (t.collect_to_head_run init combine).1

/-- The walk `collect_to_head` performs, as a relation: starting from `tag`,
the chain of visited tags is `ts` and the collected leaf values are `vs`
(in visit order), and the chain ends on a `Root` entry.  This is the
specification's "chain from head up to Root"; its finiteness is the
finiteness of the derivation. -/
inductive ChainT {T : Type} (m : List (String × TreeEntry T)) :
    String → List String → List T → Prop where
  | root {tag : String} (h : lookupTag tag m = some TreeEntry.Root) :
      ChainT m tag [tag] []
  | step {tag : String} {v : T} {p : String} {ts : List String} {vs : List T}
      (h : lookupTag tag m = some (TreeEntry.Leaf v p)) (hp : ChainT m p ts vs) :
      ChainT m tag (tag :: ts) (v :: vs)

/-- Trees obtainable from `Tree::with_root` by finite sequences of `commit`,
`checkout` and `remove` calls. -/
inductive Reachable {T : Type} : Tree T → Prop where
  | with_root (root : String) : Reachable (Tree.with_root (T := T) root)
  | commit {t : Tree T} (tag : String) (change : T) (h : Reachable t) :
      Reachable (t.commit tag change).2
  | checkout {t : Tree T} (tag : String) (h : Reachable t) :
      Reachable (t.checkout tag).2
  | remove {t : Tree T} (tag : String) (h : Reachable t) :
      Reachable (t.remove tag).2

/-- The structural invariant of reachable trees: unique keys (a `HashMap`
never holds two entries under one key), a live head, every key's parent
chain ending at `Root`, a unique `Root` entry, and the root tag always
being the head or some leaf's parent. -/
structure Wf {T : Type} (t : Tree T) : Prop where
  nodup : (keys t.map).Nodup
  head_mem : (lookupTag t.head t.map).isSome
  reaches : ∀ tag, (lookupTag tag t.map).isSome → ∃ ts vs, ChainT t.map tag ts vs
  root_unique : ∀ a b, lookupTag a t.map = some TreeEntry.Root →
      lookupTag b t.map = some TreeEntry.Root → a = b
  root_covered : ∀ r, lookupTag r t.map = some TreeEntry.Root →
      r = t.head ∨ isParentOf t.map r = true

/-! ### The source-leakage bridge and the process layer

`src/utils/drop_leakage.rs` leaks a `String` into a `&'t str` through
`Box::leak` and reclaims the allocation with `unleak_str`; `src/process.rs`
drives it.  Leaked allocations are embedded as consecutive numeric
identifiers handed out by `leak_string`, and the `unleakLog` records every
`unleak_str` call, in order. -/

/-- The allocation state of the leakage bridge: the next fresh allocation
identifier and the log of `unleak_str` calls made so far. -/
structure BridgeState where
  nextAlloc : Nat
  unleakLog : List Nat
deriving DecidableEq

/-- `leak_string` (src/utils/drop_leakage.rs): hands out a fresh leaked
allocation. -/
def leak_string (s : BridgeState) : Nat × BridgeState :=
  (s.nextAlloc, { nextAlloc := s.nextAlloc + 1, unleakLog := s.unleakLog })

/-- `unleak_str` (src/utils/drop_leakage.rs): reclaims a leaked allocation;
the model records the call in the log. -/
def unleak_str (id : Nat) (s : BridgeState) : BridgeState :=
  { s with unleakLog := s.unleakLog ++ [id] }

/-- Modelled from the spec: the external parser's AST is a zero-copy view of
the leaked source text, so an AST value is identified by the allocation it
borrows, and a clone borrows the same allocation. -/
structure AstM where
  src : Nat
deriving DecidableEq

/-- Modelled from the spec: a Delta (`qvnt::qasm::Int`, external) may
reference leaked source texts through the ASTs it holds, and releasing it
releases those ASTs (the `DropExt for Int` impl in
src/utils/drop_leakage.rs iterates the Int's ASTs and drops each). -/
structure IntM where
  asts : List AstM
deriving DecidableEq

/-- `DropExt for Ast` (src/utils/drop_leakage.rs lines 22-29): releasing an
AST calls `unleak_str` on its source allocation. -/
def astDropCalls (a : AstM) : List Nat := [a.src]

/-- `DropExt for Int` (src/utils/drop_leakage.rs lines 16-20): releasing an
Int releases each AST it holds, in order. -/
def intDropCalls (i : IntM) : List Nat :=
  i.asts.foldr (fun a acc => astDropCalls a ++ acc) []

/-- The `unleak_str` calls made when a list of Ints is released in order
(tree teardown releases `drainReleases` of its map). -/
def intsDropCalls : List IntM → List Nat
  | [] => []
  | i :: rest => intDropCalls i ++ intsDropCalls rest

/-- `Process::ast_from_string` (src/process.rs lines 89-98): leak the
source, run the external parser on the leaked slice, and on parse failure
reclaim the leaked source before returning the error.  The parser is an
external capability, so its verdict is a parameter. -/
def ast_from_string (parseOk : Bool) (s : BridgeState) : Option AstM × BridgeState :=
  let r := leak_string s
  if parseOk then (some { src := r.1 }, r.2)
  else (none, unleak_str r.1 r.2)

/-- The process-level state relevant to the bridge contract: the bridge, the
`storage` AST cache of `Process` (src/process.rs line 81), and the tag tree
of Ints. -/
structure RunState where
  bridge : BridgeState
  storage : List (String × AstM)
  tree : Tree IntM
deriving DecidableEq

/-- Modelled from the spec: `Tree::checkout_root` "unconditionally moves
head to Root" (the spec's checkout-root; its definition is not among the
sources at hand, only its callers are).  The interpreter's root tag is
`"."` (`ROOT_TAG`, src/program.rs). -/
def checkout_root (t : Tree IntM) : Tree IntM :=
  { t with head := "." }

/-- The `Command::Root` arm of `Process::process_tag_cmd` (src/process.rs):
`checkout_root` on the tree (the accompanying reset touches only the
interpreter state, not the bridge). -/
def rootTagCmd (st : RunState) : RunState :=
  { st with tree := checkout_root st.tree }

/-- The `Command::Remove` arm of `Process::process_tag_cmd`
(src/process.rs): call `Tree::remove`; inside `Tree::remove` the `Removed`
outcome passes the removed entry's value to `T::drop`
(src/int_tree.rs line 178), whose `unleak_str` calls the model logs. -/
def removeTagCmd (tag : String) (st : RunState) : RemoveStatus × RunState :=
  let r := st.tree.remove tag
  match r.1, lookupTag tag st.tree.map with
  | RemoveStatus.Removed, some (TreeEntry.Leaf v _) =>
    (r.1, { st with tree := r.2,
                    bridge := { st.bridge with
                                unleakLog := st.bridge.unleakLog ++ intDropCalls v } })
  | s, _ => (s, { st with tree := r.2 })

/-- `Process::load_qasm` (src/process.rs lines 238-264) with
`switch_to = true`: fetch the path's AST from the `storage` cache, or read
and parse the file's source (leaking it) and cache the AST, keeping a clone;
then `checkout_root` and commit a fresh Int holding the AST
(`Int::new(ast)`, modelled from the spec as a Delta holding that AST) under
the path tag.  A duplicate path tag is the fatal `Error::Inner`.  Returns
(state after the call, success). -/
def load_qasm (path : String) (parseOk : Bool) (st : RunState) : RunState × Bool :=
  match lookupTag path st.storage with
  | some ast =>
    let t1 := checkout_root st.tree
    let c := t1.commit path { asts := [ast] }
    if c.1 then ({ st with tree := c.2 }, true)
    else ({ st with tree := t1 }, false)
  | none =>
    match ast_from_string parseOk st.bridge with
    | (none, b1) => ({ st with bridge := b1 }, false)
    | (some ast, b1) =>
      let st1 : RunState :=
        { st with bridge := b1, storage := st.storage ++ [(path, ast)] }
      let t1 := checkout_root st1.tree
      let c := t1.commit path { asts := [ast] }
      if c.1 then ({ st1 with tree := c.2 }, true)
      else ({ st1 with tree := t1 }, false)

/-- `impl Drop for Tree` (src/int_tree.rs lines 190-198) at process exit:
drain the map and release every remaining Leaf's Int through `DropExt`. -/
def teardown (st : RunState) : RunState :=
  { st with
    tree := { head := st.tree.head, map := [] },
    bridge := { st.bridge with
                unleakLog := st.bridge.unleakLog
                  ++ intsDropCalls (drainReleases st.tree.map) } }

/-- The run refuting claim C8: `:load f` (the file parses), `:tag root`,
`:tag rm f`, `:load f` again, then interpreter exit (tree teardown).  The
flag records that every step took the expected branch. -/
def c8Run : RunState × Bool :=
  let s0 : RunState :=
    { bridge := { nextAlloc := 0, unleakLog := [] },
      storage := [], tree := Tree.with_root "." }
  let l1 := load_qasm "f" true s0
  let s1 := rootTagCmd l1.1
  let r := removeTagCmd "f" s1
  let l2 := load_qasm "f" true r.2
  (teardown l2.1, l1.2 && decide (r.1 = RemoveStatus.Removed) && l2.2)

/-! ### Sample trees used by the witnesses -/

/-- The tree produced by `Tree::with_root(".")` (the interpreter's root tag,
`ROOT_TAG` in src/program.rs). -/
def exRoot : Tree Nat := Tree.with_root "."

/-- `exRoot` after a successful `commit("a", 1)`. -/
def exTree1 : Tree Nat := (exRoot.commit "a" 1).2

/-- A `Tree` value at which `remove` answers `IsRoot`: the head names a leaf
whose parent is dangling, and the `Root` entry is neither the head nor any
leaf's parent.  No such state is reachable through the public operations,
but the type of trees (a map plus a head tag) contains it. -/
def cexTree : Tree Nat :=
  { head := "a", map := [("r", TreeEntry.Root), ("a", TreeEntry.Leaf 7 "g")] }

end QvntI

namespace QvntI

/-! ### Basic association-list lemmas -/

theorem lookupTag_isSome_iff_mem_keys {A : Type} (x : String) (m : List (String × A)) :
    (lookupTag x m).isSome ↔ x ∈ keys m := by
  induction m with
  | nil => simp [lookupTag, keys]
  | cons e rest ih =>
    by_cases h : e.1 = x
    · subst h
      simp [lookupTag, keys]
    · have hstep : lookupTag x (e :: rest) = lookupTag x rest := by simp [lookupTag, h]
      rw [hstep, ih]
      simp only [keys, List.map_cons, List.mem_cons]
      exact ⟨fun hm => Or.inr hm, fun hm => hm.resolve_left fun hh => h hh.symm⟩

theorem lookupTag_eq_none_iff {A : Type} (x : String) (m : List (String × A)) :
    lookupTag x m = none ↔ x ∉ keys m := by
  rw [← lookupTag_isSome_iff_mem_keys]
  cases lookupTag x m <;> simp

theorem lookupTag_mem {A : Type} {x : String} {m : List (String × A)} {a : A}
    (h : lookupTag x m = some a) : (x, a) ∈ m := by
  induction m with
  | nil => simp [lookupTag] at h
  | cons e rest ih =>
    by_cases he : e.1 = x
    · subst he
      have hh : lookupTag e.1 (e :: rest) = some e.2 := by simp [lookupTag]
      rw [hh] at h
      injection h with h
      subst h
      exact List.mem_cons_self _ _
    · simp only [lookupTag, if_neg he] at h
      exact List.mem_cons_of_mem _ (ih h)

theorem keys_eraseKey_sublist {A : Type} (x : String) (m : List (String × A)) :
    (keys (eraseKey x m)).Sublist (keys m) := by
  induction m with
  | nil => simp [eraseKey, keys]
  | cons e rest ih =>
    by_cases h : e.1 = x
    · have herase : eraseKey x (e :: rest) = rest := by simp [eraseKey, h]
      rw [herase]
      exact List.sublist_cons_self e.1 (keys rest)
    · have herase : eraseKey x (e :: rest) = e :: eraseKey x rest := by simp [eraseKey, h]
      rw [herase]
      exact ih.cons₂ e.1

theorem mem_eraseKey {A : Type} {e : String × A} {x : String} {m : List (String × A)}
    (hm : e ∈ m) (hx : e.1 ≠ x) : e ∈ eraseKey x m := by
  induction m with
  | nil => simp at hm
  | cons f rest ih =>
    rcases List.mem_cons.1 hm with rfl | hm
    · simp [eraseKey, hx]
    · by_cases hf : f.1 = x
      · simpa [eraseKey, hf] using hm
      · simpa [eraseKey, hf] using Or.inr (ih hm)

theorem lookupTag_eraseKey {A : Type} {m : List (String × A)} (hnd : (keys m).Nodup)
    (tag x : String) :
    lookupTag x (eraseKey tag m) = if x = tag then none else lookupTag x m := by
  induction m with
  | nil => simp [eraseKey, lookupTag]
  | cons e rest ih =>
    simp only [keys, List.map_cons, List.nodup_cons] at hnd
    have ih' := ih hnd.2
    by_cases he : e.1 = tag
    · subst he
      have herase : eraseKey e.1 (e :: rest) = rest := by simp [eraseKey]
      rw [herase]
      by_cases hx : x = e.1
      · subst hx
        rw [if_pos rfl, lookupTag_eq_none_iff]
        exact hnd.1
      · have hne : ¬(e.1 = x) := fun hh => hx hh.symm
        have hstep : lookupTag x (e :: rest) = lookupTag x rest := by
          simp [lookupTag, hne]
        rw [if_neg hx, hstep]
    · have herase : eraseKey tag (e :: rest) = e :: eraseKey tag rest := by
        simp [eraseKey, he]
      rw [herase]
      by_cases hex : e.1 = x
      · have hx : ¬(x = tag) := fun hh => he (hex.trans hh)
        simp [lookupTag, hex, hx]
      · have h1 : lookupTag x (e :: eraseKey tag rest) = lookupTag x (eraseKey tag rest) := by
          simp [lookupTag, hex]
        have h2 : lookupTag x (e :: rest) = lookupTag x rest := by simp [lookupTag, hex]
        rw [h1, h2, ih']

theorem drainReleases_length {T : Type} (m : List (String × TreeEntry T)) :
    (drainReleases m).length = countLeaves m := by
  induction m with
  | nil => rfl
  | cons e rest ih =>
    match e with
    | (x, TreeEntry.Root) =>
      simpa [drainReleases, countLeaves, List.countP_cons] using ih
    | (x, TreeEntry.Leaf v p) =>
      have hc : countLeaves ((x, TreeEntry.Leaf v p) :: rest) = countLeaves rest + 1 := by
        simp [countLeaves, List.countP_cons]
      rw [hc]
      simp only [drainReleases, List.length_cons, ih]

theorem drainReleases_eq_filterMap {T : Type} (m : List (String × TreeEntry T)) :
    drainReleases m
      = m.filterMap fun e =>
          match e.2 with
          | TreeEntry.Leaf v _ => some v
          | TreeEntry.Root => none := by
  induction m with
  | nil => rfl
  | cons e rest ih =>
    match e with
    | (x, TreeEntry.Root) => simpa [drainReleases, List.filterMap_cons] using ih
    | (x, TreeEntry.Leaf v p) => simpa [drainReleases, List.filterMap_cons] using ih

theorem isParentOf_iff {T : Type} (m : List (String × TreeEntry T)) (tag : String) :
    isParentOf m tag = true ↔ ∃ x v, (x, TreeEntry.Leaf v tag) ∈ m := by
  simp only [isParentOf, List.any_eq_true]
  constructor
  · rintro ⟨e, hmem, he⟩
    match e with
    | (x, TreeEntry.Root) => simp at he
    | (x, TreeEntry.Leaf v p) =>
      simp only [decide_eq_true_eq] at he
      subst he
      exact ⟨x, v, hmem⟩
  · rintro ⟨x, v, hmem⟩
    exact ⟨(x, TreeEntry.Leaf v tag), hmem, by simp⟩

end QvntI

namespace QvntI

/-! ### Claims C1, C2, C3, C5, C6 -/

/-- C1 counterexample: `remove` is *not* mutation-free on every non-`Removed`
outcome.  At `cexTree`, `remove("r")` reports `IsRoot`, yet the `Root` entry
that was present under `"r"` before the call is gone from the map afterwards
(src/int_tree.rs removes the entry with `map.remove(&tag)` before matching
on it, and does not reinsert it in the `Root` arm). -/
theorem remove_isroot_mutates_cex :
    (cexTree.remove "r").1 = RemoveStatus.IsRoot
    ∧ lookupTag "r" cexTree.map = some TreeEntry.Root
    ∧ lookupTag "r" (cexTree.remove "r").2.map = none := by
  decide

/-- C1 (amended): if `remove(tag)` returns `IsHead`, `IsParent` or
`NotFound`, the tree (map and head) is exactly as before the call; if it
returns `IsRoot`, the head is unchanged but the entry under `tag` has been
removed from the map. -/
theorem remove_failure_frame {T : Type} (t : Tree T) (tag : String) :
    ((t.remove tag).1 = RemoveStatus.IsHead ∨ (t.remove tag).1 = RemoveStatus.IsParent ∨
        (t.remove tag).1 = RemoveStatus.NotFound → (t.remove tag).2 = t)
    ∧ ((t.remove tag).1 = RemoveStatus.IsRoot →
        (t.remove tag).2.head = t.head ∧ (t.remove tag).2.map = eraseKey tag t.map) := by
  by_cases h1 : t.head = tag
  · simp [Tree.remove, h1]
  · by_cases h2 : isParentOf t.map tag = true
    · simp [Tree.remove, h1, h2]
    · rcases hl : lookupTag tag t.map with _ | (_ | ⟨v, p⟩)
      · simp [Tree.remove, h1, h2, hl]
      · simp [Tree.remove, h1, h2, hl]
      · simp [Tree.remove, h1, h2, hl]

/-- Witness for C1's theorem: at `exRoot`, `remove("x")` reports `NotFound`
and indeed leaves the tree untouched. -/
theorem remove_failure_frame_witness :
    (exRoot.remove "x").2 = exRoot :=
  (remove_failure_frame exRoot "x").1 (Or.inr (Or.inr (by decide)))

/-- C2: on a tree whose map has unique keys (every `HashMap` state does),
`remove(tag)` answers exactly one of the five statuses, decided in the order
the source checks them: `IsHead` iff `tag` is the head; `IsParent` iff it is
not the head but is some leaf's parent; `IsRoot` iff neither of those and
the map holds `Root` under `tag`; `NotFound` iff neither of the first two
and `tag` is not a key; `Removed` in the remaining existing-tag case, after
which `tag` is no longer a key of the map. -/
theorem remove_status_cases {T : Type} (t : Tree T) (tag : String)
    (hnd : (keys t.map).Nodup) :
    ((t.remove tag).1 = RemoveStatus.IsHead ↔ t.head = tag)
    ∧ ((t.remove tag).1 = RemoveStatus.IsParent ↔
        t.head ≠ tag ∧ isParentOf t.map tag = true)
    ∧ ((t.remove tag).1 = RemoveStatus.IsRoot ↔
        t.head ≠ tag ∧ isParentOf t.map tag = false ∧
          lookupTag tag t.map = some TreeEntry.Root)
    ∧ ((t.remove tag).1 = RemoveStatus.NotFound ↔
        t.head ≠ tag ∧ isParentOf t.map tag = false ∧ lookupTag tag t.map = none)
    ∧ ((t.remove tag).1 = RemoveStatus.Removed ↔
        t.head ≠ tag ∧ isParentOf t.map tag = false ∧
          ∃ v p, lookupTag tag t.map = some (TreeEntry.Leaf v p))
    ∧ ((t.remove tag).1 = RemoveStatus.Removed →
        lookupTag tag (t.remove tag).2.map = none) := by
  by_cases h1 : t.head = tag
  · simp [Tree.remove, h1]
  · by_cases h2 : isParentOf t.map tag = true
    · simp [Tree.remove, h1, h2]
    · have h2' : isParentOf t.map tag = false := by
        cases h : isParentOf t.map tag
        · rfl
        · exact absurd h h2
      rcases hl : lookupTag tag t.map with _ | (_ | ⟨v, p⟩)
      · simp [Tree.remove, h1, h2, h2', hl]
      · simp [Tree.remove, h1, h2, h2', hl]
      · refine ⟨by simp [Tree.remove, h1, h2, hl], by simp [Tree.remove, h1, h2, hl],
          by simp [Tree.remove, h1, h2, hl], by simp [Tree.remove, h1, h2, hl],
          ⟨fun _ => ⟨h1, h2', v, p, rfl⟩, fun _ => by simp [Tree.remove, h1, h2, hl]⟩,
          fun _ => ?_⟩
        have hrm : (t.remove tag).2.map = eraseKey tag t.map := by
          simp [Tree.remove, h1, h2, hl]
        rw [hrm, lookupTag_eraseKey hnd tag tag, if_pos rfl]

/-- Witness for C2's theorem at `exTree1` and tag `"."`: the root tag is the
parent of leaf `"a"` and not the head, so the status is `IsParent`. -/
theorem remove_status_cases_witness :
    (exTree1.remove ".").1 = RemoveStatus.IsParent :=
  ((remove_status_cases exTree1 "." (by decide)).2.1).2 ⟨by decide, by decide⟩

/-- C3: `commit` with a tag that is already a key returns `false` and leaves
the tree (map and head) exactly as it was. -/
theorem commit_duplicate_frame {T : Type} (t : Tree T) (tag : String) (change : T)
    (h : (lookupTag tag t.map).isSome = true) :
    t.commit tag change = (false, t) := by
  simp [Tree.commit, h]

/-- Witness for C3's theorem: committing under the root tag again fails and
leaves `exRoot` unchanged. -/
theorem commit_duplicate_frame_witness :
    exRoot.commit "." 5 = (false, exRoot) :=
  commit_duplicate_frame exRoot "." 5 (by decide)

/-- C5: `commit` with a fresh tag returns `true`, moves the head to `tag`,
stores a `Leaf` holding the supplied change whose parent is the head as it
was at the start of the call, and leaves every other key's entry intact. -/
theorem commit_fresh_inserts {T : Type} (t : Tree T) (tag : String) (change : T)
    (h : lookupTag tag t.map = none) :
    (t.commit tag change).1 = true
    ∧ (t.commit tag change).2.head = tag
    ∧ lookupTag tag (t.commit tag change).2.map = some (TreeEntry.Leaf change t.head)
    ∧ ∀ x, x ≠ tag → lookupTag x (t.commit tag change).2.map = lookupTag x t.map := by
  refine ⟨by simp [Tree.commit, h], by simp [Tree.commit, h],
    by simp [Tree.commit, h, lookupTag], fun x hx => ?_⟩
  have hne : ¬(tag = x) := fun hh => hx hh.symm
  simp [Tree.commit, h, lookupTag, hne]

/-- Witness for C5's theorem: committing `1` under the fresh tag `"a"` on
`exRoot` succeeds and the new leaf's parent is the old head `"."`. -/
theorem commit_fresh_inserts_witness :
    lookupTag "a" (exRoot.commit "a" 1).2.map = some (TreeEntry.Leaf 1 exRoot.head) :=
  (commit_fresh_inserts exRoot "a" 1 (by decide)).2.2.1

/-- C6: tearing a tree down (`impl Drop for Tree`, src/int_tree.rs) calls
`T::drop` exactly once per `Leaf` entry remaining in the map — the release
list has one element per leaf, in drain order, and `Root` entries contribute
no call. -/
theorem teardown_release_count {T : Type} (t : Tree T) :
    (drainReleases t.map).length = countLeaves t.map
    ∧ drainReleases t.map
        = t.map.filterMap fun e =>
            match e.2 with
            | TreeEntry.Leaf v _ => some v
            | TreeEntry.Root => none :=
  ⟨drainReleases_length t.map, drainReleases_eq_filterMap t.map⟩

end QvntI

namespace QvntI

/-! ### Chain lemmas for `collect_to_head` -/

theorem chainT_length {T : Type} {m : List (String × TreeEntry T)} {tag : String}
    {ts : List String} {vs : List T} (h : ChainT m tag ts vs) :
    ts.length = vs.length + 1 := by
  induction h with
  | root _ => rfl
  | step _ _ ih => simp [ih]

theorem chainT_unique {T : Type} {m : List (String × TreeEntry T)} {tag : String}
    {ts ts' : List String} {vs vs' : List T}
    (h : ChainT m tag ts vs) (h' : ChainT m tag ts' vs') : ts = ts' ∧ vs = vs' := by
  induction h generalizing ts' vs' with
  | root hr =>
    cases h' with
    | root _ => exact ⟨rfl, rfl⟩
    | step hl _ => rw [hr] at hl; cases hl
  | step hl hp ih =>
    cases h' with
    | root hr => rw [hl] at hr; cases hr
    | step hl' hp' =>
      have he := hl.symm.trans hl'
      injection he with he
      injection he with hv hpp
      subst hv
      subst hpp
      obtain ⟨hts, hvs⟩ := ih hp'
      exact ⟨by rw [hts], by rw [hvs]⟩

theorem chainT_mem_suffix {T : Type} {m : List (String × TreeEntry T)} {p x : String}
    {ts : List String} {vs : List T} (h : ChainT m p ts vs) (hx : x ∈ ts) :
    ∃ ts₁ vs₁, ChainT m x ts₁ vs₁ ∧ ts₁.length ≤ ts.length := by
  induction h with
  | root hr =>
    rcases List.mem_singleton.1 hx with rfl
    exact ⟨_, _, ChainT.root hr, le_refl _⟩
  | step hl hp ih =>
    rcases List.mem_cons.1 hx with rfl | hx'
    · exact ⟨_, _, ChainT.step hl hp, le_refl _⟩
    · obtain ⟨ts₁, vs₁, hc, hle⟩ := ih hx'
      exact ⟨ts₁, vs₁, hc, hle.trans (Nat.le_succ _)⟩

theorem chainT_nodup {T : Type} {m : List (String × TreeEntry T)} {tag : String}
    {ts : List String} {vs : List T} (h : ChainT m tag ts vs) : ts.Nodup := by
  induction h with
  | root _ => simp
  | @step tag v p ts vs hl hp ih =>
    refine List.nodup_cons.2 ⟨fun hmem => ?_, ih⟩
    obtain ⟨ts₁, vs₁, hc, hle⟩ := chainT_mem_suffix hp hmem
    obtain ⟨hts, _⟩ := chainT_unique (ChainT.step hl hp) hc
    rw [← hts] at hle
    simp only [List.length_cons] at hle
    omega

theorem chainT_subset_keys {T : Type} {m : List (String × TreeEntry T)} {tag : String}
    {ts : List String} {vs : List T} (h : ChainT m tag ts vs) :
    ∀ x ∈ ts, x ∈ keys m := by
  induction h with
  | root hr =>
    intro x hx
    rcases List.mem_singleton.1 hx with rfl
    exact (lookupTag_isSome_iff_mem_keys _ _).1 (by simp [hr])
  | step hl hp ih =>
    intro x hx
    rcases List.mem_cons.1 hx with rfl | hx'
    · exact (lookupTag_isSome_iff_mem_keys _ _).1 (by simp [hl])
    · exact ih x hx'

theorem chainT_length_le {T : Type} {m : List (String × TreeEntry T)} {tag : String}
    {ts : List String} {vs : List T} (h : ChainT m tag ts vs) :
    ts.length ≤ m.length := by
  have hsub : ts ⊆ keys m := fun x hx => chainT_subset_keys h x hx
  have hlen := ((chainT_nodup h).subperm hsub).length_le
  simpa [keys] using hlen

theorem collectAuxSt_frame {T : Type} (combine : T → T → T) (fuel : Nat) (t : Tree T)
    (tag : String) (acc : T) : (collectAuxSt combine fuel t tag acc).2 = t := by
  induction fuel generalizing tag acc with
  | zero => rfl
  | succ fuel ih =>
    rcases hl : lookupTag tag t.map with _ | (_ | ⟨v, p⟩)
    · simp [collectAuxSt, hl]
    · simp [collectAuxSt, hl]
    · simpa [collectAuxSt, hl] using ih p (combine acc v)

theorem collectAuxSt_of_chain {T : Type} (combine : T → T → T) {t : Tree T}
    {tag : String} {ts : List String} {vs : List T} (h : ChainT t.map tag ts vs) :
    ∀ fuel, ts.length ≤ fuel → ∀ acc,
      (collectAuxSt combine fuel t tag acc).1 = some (vs.foldl combine acc) := by
  induction h with
  | root hr =>
    intro fuel hle acc
    cases fuel with
    | zero => simp at hle
    | succ fuel => simp [collectAuxSt, hr]
  | @step tag v p ts vs hl hp ih =>
    intro fuel hle acc
    cases fuel with
    | zero => simp at hle
    | succ fuel =>
      simp only [List.length_cons, Nat.succ_le_succ_iff] at hle
      simpa [collectAuxSt, hl] using ih fuel hle (combine acc v)

/-! ### Claims C4 and C9 -/

/-- C4: `collect_to_head` folds the leaf values along the chain from the
current head up to `Root`, in head-to-root order, replacing the accumulator
by `combine(accumulator, value)` at each leaf; and when the head is the
`Root` entry it returns the supplied identity value unchanged for *every*
`combine`, i.e. without `combine` being consulted at all. -/
theorem collect_to_head_folds_chain {T : Type} (t : Tree T) :
    (∀ (init : T) (combine : T → T → T) (ts : List String) (vs : List T),
        ChainT t.map t.head ts vs →
          t.collect_to_head init combine = some (vs.foldl combine init))
    ∧ (lookupTag t.head t.map = some TreeEntry.Root →
        ∀ (init : T) (combine : T → T → T), t.collect_to_head init combine = some init) := by
  constructor
  · intro init combine ts vs h
    have hlen : ts.length ≤ t.map.length + 1 := (chainT_length_le h).trans (Nat.le_succ _)
    exact collectAuxSt_of_chain combine h _ hlen init
  · intro hr init combine
    have h : ChainT t.map t.head [t.head] [] := ChainT.root hr
    simpa using collectAuxSt_of_chain combine h (t.map.length + 1)
      (by simp [Nat.succ_le_succ_iff]) init

/-- Witness for C4's theorem: on `exTree1` (root `"."` with one leaf `"a"`
holding `1`, head on `"a"`) the chain is `"a"`-then-`"."`, and collecting
with `Nat.add` from `0` yields `fold` of `[1]`. -/
theorem collect_to_head_folds_chain_witness :
    exTree1.collect_to_head 0 Nat.add = some (List.foldl Nat.add 0 [1]) :=
  (collect_to_head_folds_chain exTree1).1 0 Nat.add ["a", "."] [1]
    (ChainT.step (by decide) (ChainT.root (by decide)))

/-- C9: `collect_to_head` never mutates the tree — the borrowed tree comes
out of the loop with map and head exactly as they went in — and a second
call in succession with the same identity and combine arguments returns the
same result. -/
theorem collect_to_head_no_mutation {T : Type} (t : Tree T) (init : T)
    (combine : T → T → T) :
    (t.collect_to_head_run init combine).2.map = t.map
    ∧ (t.collect_to_head_run init combine).2.head = t.head
    ∧ ((t.collect_to_head_run init combine).2.collect_to_head_run init combine).1
        = (t.collect_to_head_run init combine).1 := by
  have hf : (t.collect_to_head_run init combine).2 = t :=
    collectAuxSt_frame combine (t.map.length + 1) t t.head init
  rw [hf]
  exact ⟨rfl, rfl, rfl⟩

end QvntI

namespace QvntI

/-! ### The reachable-tree invariant -/

theorem chainT_cons_fresh {T : Type} {m : List (String × TreeEntry T)}
    {e : String × TreeEntry T} (hfresh : e.1 ∉ keys m) {tag : String}
    {ts : List String} {vs : List T} (h : ChainT m tag ts vs) :
    ChainT (e :: m) tag ts vs := by
  induction h with
  | @root tag hr =>
    refine ChainT.root ?_
    have hmem : tag ∈ keys m := (lookupTag_isSome_iff_mem_keys _ _).1 (by simp [hr])
    have hne : ¬(e.1 = tag) := fun hh => hfresh (by rw [hh]; exact hmem)
    simp [lookupTag, hne, hr]
  | @step tag v p ts vs hl hp ih =>
    refine ChainT.step ?_ ih
    have hmem : tag ∈ keys m := (lookupTag_isSome_iff_mem_keys _ _).1 (by simp [hl])
    have hne : ¬(e.1 = tag) := fun hh => hfresh (by rw [hh]; exact hmem)
    simp [lookupTag, hne, hl]

theorem chainT_eraseKey {T : Type} {m : List (String × TreeEntry T)}
    (hnd : (keys m).Nodup) {tag : String} (hnp : isParentOf m tag = false)
    {x : String} {ts : List String} {vs : List T}
    (hx : ¬(x = tag)) (h : ChainT m x ts vs) :
    ChainT (eraseKey tag m) x ts vs := by
  induction h with
  | @root y hr =>
    refine ChainT.root ?_
    rw [lookupTag_eraseKey hnd tag y, if_neg hx]
    exact hr
  | @step y v p ts vs hl hp ih =>
    have hpt : ¬(p = tag) := by
      intro hh
      subst hh
      have : isParentOf m p = true := (isParentOf_iff m p).2 ⟨y, v, lookupTag_mem hl⟩
      rw [this] at hnp
      cases hnp
    refine ChainT.step ?_ (ih hpt)
    rw [lookupTag_eraseKey hnd tag y, if_neg hx]
    exact hl

theorem chainT_root_parent {T : Type} {m : List (String × TreeEntry T)} {x : String}
    {ts : List String} {vs : List T} (h : ChainT m x ts vs) :
    lookupTag x m ≠ some TreeEntry.Root →
      ∃ y w q, lookupTag y m = some (TreeEntry.Leaf w q)
        ∧ lookupTag q m = some TreeEntry.Root
        ∧ (y = x ∨ isParentOf m y = true) := by
  induction h with
  | @root tag hr => exact fun hx => absurd hr hx
  | @step tag v p ts vs hl hp ih =>
    intro _
    by_cases hproot : lookupTag p m = some TreeEntry.Root
    · exact ⟨tag, v, p, hl, hproot, Or.inl rfl⟩
    · obtain ⟨y, w, q, h1, h2, h3⟩ := ih hproot
      refine ⟨y, w, q, h1, h2, Or.inr ?_⟩
      rcases h3 with rfl | h3
      · exact (isParentOf_iff m y).2 ⟨tag, v, lookupTag_mem hl⟩
      · exact h3

theorem wf_with_root {T : Type} (root : String) : Wf (Tree.with_root (T := T) root) := by
  constructor
  · simp [Tree.with_root, keys]
  · simp [Tree.with_root, lookupTag]
  · intro tag h
    simp only [Tree.with_root] at h ⊢
    by_cases hr : root = tag
    · subst hr
      exact ⟨[root], [], ChainT.root (by simp [lookupTag])⟩
    · simp [lookupTag, hr] at h
  · intro a b ha hb
    simp only [Tree.with_root] at ha hb
    by_cases hra : root = a
    · by_cases hrb : root = b
      · rw [← hra, ← hrb]
      · simp [lookupTag, hrb] at hb
    · simp [lookupTag, hra] at ha
  · intro r hr
    left
    simp only [Tree.with_root] at hr ⊢
    by_cases hrr : root = r
    · exact hrr.symm
    · simp [lookupTag, hrr] at hr

theorem wf_commit {T : Type} {t : Tree T} (hw : Wf t) (tag : String) (change : T) :
    Wf (t.commit tag change).2 := by
  by_cases h : (lookupTag tag t.map).isSome
  · simpa [Tree.commit, h] using hw
  · have hfresh : tag ∉ keys t.map := by
      rw [← lookupTag_isSome_iff_mem_keys]
      simpa using h
    have hcommit : (t.commit tag change).2
        = { head := tag, map := (tag, TreeEntry.Leaf change t.head) :: t.map } := by
      simp [Tree.commit, h]
    rw [hcommit]
    constructor
    · simp only [keys, List.map_cons, List.nodup_cons]
      exact ⟨hfresh, hw.nodup⟩
    · simp [lookupTag]
    · intro x hx
      by_cases hxt : tag = x
      · subst hxt
        obtain ⟨ts, vs, hc⟩ := hw.reaches t.head hw.head_mem
        have hc' := chainT_cons_fresh (e := (tag, TreeEntry.Leaf change t.head)) hfresh hc
        exact ⟨tag :: ts, change :: vs, ChainT.step (by simp [lookupTag]) hc'⟩
      · have hx' : (lookupTag x t.map).isSome := by
          simpa [lookupTag, hxt] using hx
        obtain ⟨ts, vs, hc⟩ := hw.reaches x hx'
        exact ⟨ts, vs, chainT_cons_fresh hfresh hc⟩
    · intro a b ha hb
      have ha' : lookupTag a t.map = some TreeEntry.Root := by
        by_cases hat : tag = a
        · subst hat
          simp [lookupTag] at ha
        · simpa [lookupTag, hat] using ha
      have hb' : lookupTag b t.map = some TreeEntry.Root := by
        by_cases hbt : tag = b
        · subst hbt
          simp [lookupTag] at hb
        · simpa [lookupTag, hbt] using hb
      exact hw.root_unique a b ha' hb'
    · intro r hr
      have hr' : lookupTag r t.map = some TreeEntry.Root := by
        by_cases hrt : tag = r
        · subst hrt
          simp [lookupTag] at hr
        · simpa [lookupTag, hrt] using hr
      rcases hw.root_covered r hr' with hh | hh
      · right
        subst hh
        exact (isParentOf_iff _ _).2 ⟨tag, change, List.mem_cons_self _ _⟩
      · right
        obtain ⟨x, v, hmem⟩ := (isParentOf_iff _ _).1 hh
        exact (isParentOf_iff _ _).2 ⟨x, v, List.mem_cons_of_mem _ hmem⟩

theorem wf_checkout {T : Type} {t : Tree T} (hw : Wf t) (tag : String) :
    Wf (t.checkout tag).2 := by
  by_cases h : (lookupTag tag t.map).isSome
  · have hch : (t.checkout tag).2 = { t with head := tag } := by simp [Tree.checkout, h]
    rw [hch]
    constructor
    · exact hw.nodup
    · exact h
    · exact hw.reaches
    · exact hw.root_unique
    · intro r hr
      by_cases hrt : r = tag
      · exact Or.inl hrt
      · obtain ⟨ts, vs, hc⟩ := hw.reaches tag h
        cases hc with
        | root hr2 => exact absurd (hw.root_unique r tag hr hr2) hrt
        | step hl hp =>
          obtain ⟨y, w, q, h1, h2, _⟩ :=
            chainT_root_parent (ChainT.step hl hp) (by simp [hl])
          have hqr : q = r := hw.root_unique q r h2 hr
          subst hqr
          exact Or.inr ((isParentOf_iff _ _).2 ⟨y, w, lookupTag_mem h1⟩)
  · simpa [Tree.checkout, h] using hw

theorem wf_remove {T : Type} {t : Tree T} (hw : Wf t) (tag : String) :
    Wf (t.remove tag).2 := by
  by_cases h1 : t.head = tag
  · simpa [Tree.remove, h1] using hw
  · by_cases h2 : isParentOf t.map tag = true
    · simpa [Tree.remove, h1, h2] using hw
    · have h2' : isParentOf t.map tag = false := by
        cases hb : isParentOf t.map tag
        · rfl
        · exact absurd hb h2
      rcases hl : lookupTag tag t.map with _ | (_ | ⟨v, p⟩)
      · simpa [Tree.remove, h1, h2, hl] using hw
      · rcases hw.root_covered tag hl with hh | hh
        · exact absurd hh.symm h1
        · exact absurd hh h2
      · have hrm : (t.remove tag).2 = { t with map := eraseKey tag t.map } := by
          simp [Tree.remove, h1, h2, hl]
        rw [hrm]
        have hnd := hw.nodup
        constructor
        · exact List.Nodup.sublist (keys_eraseKey_sublist _ _) hnd
        · show (lookupTag t.head (eraseKey tag t.map)).isSome
          rw [lookupTag_eraseKey hnd tag t.head, if_neg h1]
          exact hw.head_mem
        · intro x hx
          by_cases hxt : x = tag
          · subst hxt
            rw [show lookupTag x (eraseKey x t.map) = none from by
              rw [lookupTag_eraseKey hnd x x, if_pos rfl]] at hx
            simp at hx
          · have hx' : (lookupTag x t.map).isSome = true := by
              rw [lookupTag_eraseKey hnd tag x, if_neg hxt] at hx
              exact hx
            obtain ⟨ts, vs, hc⟩ := hw.reaches x hx'
            exact ⟨ts, vs, chainT_eraseKey hnd h2' hxt hc⟩
        · intro a b ha hb
          by_cases hat : a = tag
          · rw [lookupTag_eraseKey hnd tag a, if_pos hat] at ha
            cases ha
          · by_cases hbt : b = tag
            · rw [lookupTag_eraseKey hnd tag b, if_pos hbt] at hb
              cases hb
            · rw [lookupTag_eraseKey hnd tag a, if_neg hat] at ha
              rw [lookupTag_eraseKey hnd tag b, if_neg hbt] at hb
              exact hw.root_unique a b ha hb
        · intro r hr
          by_cases hrt : r = tag
          · rw [lookupTag_eraseKey hnd tag r, if_pos hrt] at hr
            cases hr
          · rw [lookupTag_eraseKey hnd tag r, if_neg hrt] at hr
            rcases hw.root_covered r hr with hh | hh
            · exact Or.inl hh
            · obtain ⟨x, w, hmem⟩ := (isParentOf_iff _ _).1 hh
              by_cases hxt : x = tag
              · obtain ⟨ts, vs, hc⟩ := hw.reaches t.head hw.head_mem
                cases hc with
                | root hr2 => exact Or.inl (hw.root_unique r t.head hr hr2)
                | step hl2 hp2 =>
                  obtain ⟨y, w2, q, hy1, hy2, hy3⟩ :=
                    chainT_root_parent (ChainT.step hl2 hp2) (by simp [hl2])
                  have hqr : q = r := hw.root_unique q r hy2 hr
                  subst hqr
                  have hyt : ¬(y = tag) := by
                    rcases hy3 with rfl | hy3
                    · exact h1
                    · intro hh2
                      subst hh2
                      rw [hy3] at h2'
                      cases h2'
                  exact Or.inr ((isParentOf_iff _ _).2
                    ⟨y, w2, mem_eraseKey (lookupTag_mem hy1) hyt⟩)
              · exact Or.inr ((isParentOf_iff _ _).2 ⟨x, w, mem_eraseKey hmem hxt⟩)

theorem reachable_wf {T : Type} {t : Tree T} (h : Reachable t) : Wf t := by
  induction h with
  | with_root root => exact wf_with_root root
  | commit tag change _ ih => exact wf_commit ih tag change
  | checkout tag _ ih => exact wf_checkout ih tag
  | remove tag _ ih => exact wf_remove ih tag

end QvntI

namespace QvntI

/-! ### Claims C7, C10, C8 -/

/-- C7: on every tree obtained from `with_root` by a finite sequence of
`commit`, `checkout` and `remove` calls, the head names a key present in
the map, and from every `Leaf` entry the parent links form a finite chain
ending at the `Root` entry (no cycles, no dangling parent references). -/
theorem reachable_head_live_and_rooted {T : Type} {t : Tree T} (h : Reachable t) :
    (lookupTag t.head t.map).isSome = true
    ∧ ∀ tag (v : T) (p : String), lookupTag tag t.map = some (TreeEntry.Leaf v p) →
        ∃ ts vs, ChainT t.map tag ts vs := by
  have hw := reachable_wf h
  exact ⟨hw.head_mem, fun tag v p hl => hw.reaches tag (by simp [hl])⟩

/-- Witness for C7's theorem, at the reachable tree `exTree1`
(`with_root "."` then `commit "a" 1`). -/
theorem reachable_head_live_and_rooted_witness :
    (lookupTag exTree1.head exTree1.map).isSome = true :=
  (reachable_head_live_and_rooted (Reachable.commit "a" 1 (Reachable.with_root "."))).1

/-- C10: on reachable trees `remove` never answers `IsRoot`: the invariant
`root_covered` (the root tag is the head or some leaf's parent) makes the
`IsHead` or `IsParent` check fire before the `Root` entry could be looked
up for removal. -/
theorem reachable_remove_never_isroot {T : Type} {t : Tree T} (h : Reachable t)
    (tag : String) : (t.remove tag).1 ≠ RemoveStatus.IsRoot := by
  intro hst
  have hw := reachable_wf h
  by_cases h1 : t.head = tag
  · simp [Tree.remove, h1] at hst
  · by_cases h2 : isParentOf t.map tag = true
    · simp [Tree.remove, h1, h2] at hst
    · rcases hl : lookupTag tag t.map with _ | (_ | ⟨v, p⟩)
      · simp [Tree.remove, h1, h2, hl] at hst
      · rcases hw.root_covered tag hl with hh | hh
        · exact h1 hh.symm
        · exact h2 hh
      · simp [Tree.remove, h1, h2, hl] at hst

/-- Witness for C10's theorem: removing the root tag `"."` of the reachable
tree `exTree1` does not answer `IsRoot` (it answers `IsParent`). -/
theorem reachable_remove_never_isroot_witness :
    (exTree1.remove ".").1 ≠ RemoveStatus.IsRoot :=
  reachable_remove_never_isroot (Reachable.commit "a" 1 (Reachable.with_root ".")) "."

/-- C8 refutation: along the run `:load f` (parse succeeds), `:tag root`,
`:tag rm f`, `:load f`, teardown — every step taking its success branch —
the single allocation leaked for `f`'s source (identifier `0`) is passed to
`unleak_str` twice: once when tag `f`'s Int is removed and dropped, and
once more at teardown of the Int re-committed from the `storage` cache's
stale AST clone.  The claim's "exactly one reclamation per allocation" is
violated (a double free). -/
theorem leaked_source_reclaimed_twice :
    c8Run.2 = true ∧ (c8Run.1).bridge.unleakLog = [0, 0] :=
  ⟨rfl, rfl⟩

end QvntI
